import Mathlib

/-!
# Verification of the Copter `Quadrature.h` interface

This development embeds the quadrature routines declared in `src/Quadrature.h`
and checks the design-level claims about them.

The repository ships only the header `Quadrature.h`: the bodies of `Integrate`
(1-D and n-D adaptive engines) and `DiscreteIntegrate` live in `Quadrature.inl`,
which is not part of the sources available here.  The substitution mixins
(`NoSub`, `ExpSub`, `InverseSub`) are fully defined in the header via the
`DECLARE_SUB` macro and are embedded directly from that source.  Everything
else (the adaptive state machine, the discrete summation formula, the error
taxonomy) is modelled from the specification, as marked in the doc comments.

Doubles are modelled by rationals (`ℚ`); a non-finite double (NaN/inf) is
modelled by `Option ℚ` with `none` standing for the non-finite case, so an
integrand is a function `ℚ → Option ℚ`.  The substitution mixins, whose claims
are about real analysis (`exp`, `log`, true derivatives), are additionally
stated over `ℝ`.
-/

namespace Copter

/-! ## Substitution mixins (from `src/Quadrature.h`, lines 47-56)

The C++ `DECLARE_SUB(NAME, X, U, DXDU)` macro produces a struct with three
scalar member functions `x`, `u`, `dxdu`.  We embed this as a structure of
three functions, polymorphic in the scalar type so the same definitions can
be read over `ℝ` (for the analytic claims) and over `ℚ` (when fed to the
engine model). -/

/-- A substitution mixin: forward map `x(u)`, inverse map `u(x)`, and the
derivative `dxdu(u)` of the forward map.  Mirrors the struct generated by
`DECLARE_SUB` in `Quadrature.h`. -/
structure Substitution (α : Type) where
  x : α → α
  u : α → α
  dxdu : α → α

/-- `DECLARE_SUB(NoSub, u, x, 1)`: the identity substitution. -/
def NoSub (α : Type) [One α] : Substitution α :=
  { x := fun u => u, u := fun x => x, dxdu := fun _ => 1 }

/-- `DECLARE_SUB(ExpSub, exp(u), log(x), exp(u))`: the exponential
substitution, stated over `ℝ` since it needs `exp`/`log` (real `exp` has no
executable exact code, hence `noncomputable`; all engine definitions below are
computable over `ℚ`). -/
noncomputable def ExpSub : Substitution ℝ :=
  { x := fun u => Real.exp u, u := fun x => Real.log x, dxdu := fun u => Real.exp u }

/-- `DECLARE_SUB(InverseSub, 1/u, 1/x, -1/(u*u))`: the reciprocal
substitution, polymorphic over any division ring. -/
def InverseSub (α : Type) [DivisionRing α] : Substitution α :=
  { x := fun u => 1 / u, u := fun x => 1 / x, dxdu := fun u => -1 / (u * u) }

/-! ## Error taxonomy and result type (modelled from the spec, §7)

`Quadrature.inl` is not among the available sources, so the outcome channel of
the routines is modelled from the spec's error taxonomy: `InvalidInput` for the
discrete formula's malformed-input failure, and for the adaptive engines a
result that is either a normal return (estimate, absolute error, evaluation
count), a `NonConvergence` signal that still carries the best current estimate
and error bound, or a fatal `InvalidIntegrand` carrying nothing. -/

/-- Modelled from the spec: the `InvalidInput` error of §7 raised by
`DiscreteIntegrate` (whose implementation in `Quadrature.inl` is missing). -/
inductive QuadError where
  | invalidInput
deriving DecidableEq

/-- Modelled from the spec: outcome of an adaptive `Integrate` call (§6, §7).
`ok` is a normal return of (estimate, abserr, neval); `nonConvergence`
surfaces the exhausted subdivision budget while still carrying the best
current estimate and error bound; `invalidIntegrand` is fatal and carries no
partial result. -/
inductive QuadResult where
  | ok (estimate abserr : ℚ) (neval : ℕ)
  | nonConvergence (estimate abserr : ℚ) (neval : ℕ)
  | invalidIntegrand
deriving DecidableEq

/-! ## Discrete summation formula (modelled from the spec, §4.5)

`DiscreteIntegrate` is declared in `Quadrature.h` (line 88) but its body is in
the missing `Quadrature.inl`; the definitions below follow the spec's words:
composite Simpson's rule for odd `n ≥ 3`, a fourth-order end-correction
(Hollingsworth-Hunter) for even `n`, and an `InvalidInput` failure for
`n < 2`.  The end-correction integrates the cubic through the last four
samples over the final unpaired interval, so it needs `n ≥ 4`; for the one
remaining accepted even count `n = 2` (not covered by the spec's formulas)
the model uses the trapezoid, the only rule two samples support. -/

/-- Composite Simpson's rule over `m` sample pairs: the weighted sum
`h/3 * Σ_{j<m} (f(2j) + 4 f(2j+1) + f(2j+2))`. -/
def simpson : ℕ → (ℕ → ℚ) → ℚ → ℚ
  | 0, _, _ => 0
  | m + 1, f, h => simpson m f h + h / 3 * (f (2 * m) + 4 * f (2 * m + 1) + f (2 * m + 2))

/-- `Σ_{j<m} f (2j+1)`: the odd-index samples entering Simpson's rule with
weight 4. -/
def oddSum : ℕ → (ℕ → ℚ) → ℚ
  | 0, _ => 0
  | m + 1, f => oddSum m f + f (2 * m + 1)

/-- `Σ_{j<m} f (2j+2)`: the interior even-index samples entering Simpson's
rule with weight 2. -/
def evenSum : ℕ → (ℕ → ℚ) → ℚ
  | 0, _ => 0
  | m + 1, f => evenSum m f + f (2 * m + 2)

/-- The textbook composite-Simpson weighted sum over `n` samples (odd `n`):
`h/3 * (f_0 + f_{n-1} + 4·(odd-index samples) + 2·(interior even-index
samples))`.  Stated from the spec's words for comparison with `simpson`. -/
def simpsonSum (n : ℕ) (f : ℕ → ℚ) (h : ℚ) : ℚ :=
  h / 3 * (f 0 + f (n - 1) + 4 * oddSum ((n - 1) / 2) f + 2 * evenSum ((n - 3) / 2) f)

/-- Modelled from the spec: the fourth-order end correction for the unpaired
final interval of an even sample count - the integral over
`[x_{n-2}, x_{n-1}]` of the cubic through the last four samples,
`h/24 * (f_{n-4} - 5 f_{n-3} + 19 f_{n-2} + 9 f_{n-1})`. -/
def endCorr (n : ℕ) (f : ℕ → ℚ) (h : ℚ) : ℚ :=
  h / 24 * (f (n - 4) - 5 * f (n - 3) + 19 * f (n - 2) + 9 * f (n - 1))

/-- Modelled from the spec: `DiscreteIntegrate(n, f, h)` of `Quadrature.h`
line 88 (body in the missing `Quadrature.inl`).  `n < 2` fails fast with
`InvalidInput` before touching any sample; odd `n` uses composite Simpson;
even `n ≥ 4` uses Simpson on the first `n-1` samples plus the end
correction; `n = 2` uses the trapezoid. -/
def DiscreteIntegrate (n : ℕ) (f : ℕ → ℚ) (h : ℚ) : Except QuadError ℚ :=
  if n < 2 then .error .invalidInput
  else if n = 2 then .ok (h * (f 0 + f 1) / 2)
  else if n % 2 = 1 then .ok (simpson ((n - 1) / 2) f h)
  else .ok (simpson ((n - 2) / 2) f h + endCorr n f h)

/-- A cubic polynomial `c0 + c1 t + c2 t² + c3 t³`. -/
def cubic (c0 c1 c2 c3 t : ℚ) : ℚ := c0 + c1 * t + c2 * t ^ 2 + c3 * t ^ 3

/-- The antiderivative of `cubic c0 c1 c2 c3` vanishing at 0. -/
def cubicInt (c0 c1 c2 c3 t : ℚ) : ℚ :=
  c0 * t + c1 * t ^ 2 / 2 + c2 * t ^ 3 / 3 + c3 * t ^ 4 / 4

/-- Uniform samples of a cubic: sample `i` is the cubic at `x0 + i*h`. -/
def cubicSamples (c0 c1 c2 c3 x0 h : ℚ) : ℕ → ℚ :=
  fun i => cubic c0 c1 c2 c3 (x0 + (i : ℚ) * h)

/-! ## 1-D adaptive engine (modelled from the spec, §4.3)

The bodies of the adaptive `Integrate` routines live in the missing
`Quadrature.inl`, so the engine below is modelled from the spec's state
machine: a partition of records, a global (estimate, error, count)
accumulator, worst-record-first subdivision with stable tie-breaking, the
dual either-tolerance stopping rule, a subdivision budget surfacing
`nonConvergence`, and a fatal `invalidIntegrand` on any non-finite value. -/

/-- Modelled from the spec (§3): a subinterval record of the adaptive
partition - bounds, the rule's estimate over it, its local error estimate. -/
structure Rec1 where
  lo : ℚ
  hi : ℚ
  est : ℚ
  err : ℚ
deriving DecidableEq

/-- Modelled from the spec (§4.2): one application of the embedded base-rule
pair to `[lo, hi]`.  The genuine 15/7-point Gauss-Kronrod abscissas and
weights are irrational constants the spec declares out of scope ("treated as
precomputed constants"); the model uses the smallest embedded symmetric pair
over the same three shared points - midpoint (coarse) inside Simpson (fine) -
with local error `|fine - coarse|`.  The integrand is evaluated at the two
endpoints and the center; any non-finite value (`none`) aborts the rule
application.  The signed half-width makes the estimate follow the interval's
orientation. -/
def gkEval (f : ℚ → Option ℚ) (lo hi : ℚ) : Option Rec1 :=
  match f lo, f ((lo + hi) / 2), f hi with
  | some fl, some fc, some fh =>
      some ⟨lo, hi, (hi - lo) / 2 * (fl + 4 * fc + fh) / 3,
            |(hi - lo) / 2 * (fl + 4 * fc + fh) / 3 - (hi - lo) / 2 * (2 * fc)|⟩
  | _, _, _ => none

/-- Modelled from the spec (§4.3/§4.4): the operations the adaptive loop
needs from a region record - its estimate, its local error contribution, and
subdivision into two freshly evaluated children (`none` when the integrand
returns a non-finite value while evaluating a child). -/
structure Scheme (ρ : Type) where
  est : ρ → ℚ
  err : ρ → ℚ
  split : ρ → Option (ρ × ρ)

variable {ρ : Type}

/-- Global running estimate: the sum of the record estimates. -/
def estSum (S : Scheme ρ) (part : List ρ) : ℚ := (part.map S.est).sum

/-- Global error bound: the sum of the local error contributions. -/
def errSum (S : Scheme ρ) (part : List ρ) : ℚ := (part.map S.err).sum

/-- Index of the first maximal entry of a rational list (`0` on the empty
list): deterministic, stable-by-insertion tie-breaking per the spec (§4.3). -/
def idxMax : List ℚ → ℕ
  | [] => 0
  | x :: xs =>
      let j := idxMax xs
      if x < xs.getD j x then j + 1 else 0

/-- The record the loop refines next: the first one attaining the maximal
local error contribution. -/
def pickWorst (S : Scheme ρ) (part : List ρ) : ℕ := idxMax (part.map S.err)

/-- Replace the record at index `i` by the two children records, keeping the
rest of the partition in order (spec §4.3 step 3). -/
def replaceAt (part : List ρ) (i : ℕ) (c1 c2 : ρ) : List ρ :=
  part.take i ++ [c1, c2] ++ part.drop (i + 1)

/-- Modelled from the spec (§4.3, generalized by §4.4): the adaptive loop.
Return normally as soon as the global error sum satisfies the absolute
tolerance OR the relative tolerance (taken against the running global
estimate); otherwise, if the subdivision budget `fuel` is exhausted, signal
`nonConvergence` still carrying the best current estimate and error bound;
otherwise split the record with the largest local error contribution and
recurse.  `cost` is the number of integrand evaluations per subdivision. -/
def loop (S : Scheme ρ) (epsrel epsabs : ℚ) (cost : ℕ) : ℕ → List ρ → ℕ → QuadResult
  | 0, part, neval =>
      if errSum S part ≤ epsabs ∨ errSum S part ≤ epsrel * |estSum S part| then
        .ok (estSum S part) (errSum S part) neval
      else
        .nonConvergence (estSum S part) (errSum S part) neval
  | fuel + 1, part, neval =>
      if errSum S part ≤ epsabs ∨ errSum S part ≤ epsrel * |estSum S part| then
        .ok (estSum S part) (errSum S part) neval
      else
        match part[pickWorst S part]? with
        | none => .nonConvergence (estSum S part) (errSum S part) neval
        | some r =>
          match S.split r with
          | none => .invalidIntegrand
          | some (c1, c2) =>
              loop S epsrel epsabs cost fuel (replaceAt part (pickWorst S part) c1 c2)
                (neval + cost)
termination_by structural fuel => fuel

/-- Modelled from the spec (§4.3 step 3): bisect a subinterval at its
midpoint and apply the base rule to each half, inserting the half on the
side of the smaller endpoint first (a deterministic, orientation-independent
insertion order). -/
def split1 (f : ℚ → Option ℚ) (r : Rec1) : Option (Rec1 × Rec1) :=
  match gkEval f r.lo ((r.lo + r.hi) / 2), gkEval f ((r.lo + r.hi) / 2) r.hi with
  | some cl, some cr => if r.lo ≤ r.hi then some (cl, cr) else some (cr, cl)
  | _, _ => none

/-- The 1-D instantiation of the adaptive loop's region interface. -/
def scheme1 (f : ℚ → Option ℚ) : Scheme Rec1 :=
  { est := Rec1.est, err := Rec1.err, split := split1 f }

/-- Modelled from the spec: the 1-D adaptive `Integrate` declared at
`Quadrature.h` line 34 (body in the missing `Quadrature.inl`).  A zero-width
domain (`a = b`) returns estimate 0, error 0 and 0 evaluations without
touching the integrand (the spec's §9 resolution of the open question); a
non-finite integrand value aborts with `invalidIntegrand`; otherwise the
adaptive loop runs with subdivision budget `maxSub`.  Three integrand
evaluations per rule application: 3 for the initial record, 6 per
subdivision. -/
def Integrate (f : ℚ → Option ℚ) (a b epsrel epsabs : ℚ) (maxSub : ℕ) : QuadResult :=
  if a = b then .ok 0 0 0
  else
    match gkEval f a b with
    | none => .invalidIntegrand
    | some r => loop (scheme1 f) epsrel epsabs 6 maxSub [r] 3

/-- Modelled from the spec and the header doc (`Quadrature.h` lines 36-44):
the substituted call computes `∫_{u(a)}^{u(b)} f(x(u)) · dxdu(u) du` with the
unmodified engine; a non-finite `f`-value makes the transformed integrand
non-finite. -/
def IntegrateSub (s : Substitution ℚ) (f : ℚ → Option ℚ) (a b epsrel epsabs : ℚ)
    (maxSub : ℕ) : QuadResult :=
  Integrate (fun u => (f (s.x u)).map (fun v => v * s.dxdu u)) (s.u a) (s.u b)
    epsrel epsabs maxSub

/-- Orientation reversal of a subinterval record: swap the bounds, negate
the estimate, keep the local error. -/
def mirrorRec (r : Rec1) : Rec1 := ⟨r.hi, r.lo, -r.est, r.err⟩

/-- Negate the estimate carried by a result, keeping error bound and
evaluation count. -/
def negResult : QuadResult → QuadResult
  | .ok e r n => .ok (-e) r n
  | .nonConvergence e r n => .nonConvergence (-e) r n
  | .invalidIntegrand => .invalidIntegrand

/-! ## n-D adaptive engine (modelled from the spec, §4.4) -/

/-- Modelled from the spec (§3): a subregion record of the n-D partition -
the box bounds, the rule's estimate and local error over it, and the axis
flagged for the next split. -/
structure RecN where
  a : List ℚ
  b : List ℚ
  est : ℚ
  err : ℚ
  axis : ℕ
deriving DecidableEq

/-- The center of the box `[a, b]`, axis by axis. -/
def centerPt (a b : List ℚ) : List ℚ := List.zipWith (fun x y => (x + y) / 2) a b

/-- Modelled from the spec (§4.4): one application of the embedded n-D rule
pair to the box `[a, b]`.  The Genz-Malik degree-7/5 stencil constants are
out-of-scope precomputed constants; the model uses the smallest stencil with
the same structure: the center plus, per axis, one point at ±(half-width)/2;
a coarse midpoint estimate; a fine curvature-corrected estimate; a per-axis
second-difference diagnostic choosing the split axis (largest curvature,
first axis on ties); local error `|fine - coarse|`.  The signed volume
follows the per-axis orientation, and any non-finite integrand value aborts
the rule application. -/
def mkRecN (f : List ℚ → Option ℚ) (a b : List ℚ) : Option RecN :=
  let c := centerPt a b
  match f c with
  | none => none
  | some fc =>
    match (List.range a.length).mapM (fun i =>
      match f (c.set i (c.getD i 0 + (b.getD i 0 - a.getD i 0) / 4)),
            f (c.set i (c.getD i 0 - (b.getD i 0 - a.getD i 0) / 4)) with
      | some fp, some fm => some (fp + fm - 2 * fc)
      | _, _ => none) with
    | none => none
    | some ds =>
      let V := (List.zipWith (fun x y => y - x) a b).prod
      some ⟨a, b, V * (fc + ds.sum / 6), |V * (fc + ds.sum / 6) - V * fc|,
            idxMax (ds.map (fun d => |d|))⟩

/-- Modelled from the spec (§4.4): halve the chosen region along its flagged
axis only, evaluating the rule on both children. -/
def splitN (f : List ℚ → Option ℚ) (r : RecN) : Option (RecN × RecN) :=
  match mkRecN f r.a (r.b.set r.axis ((r.a.getD r.axis 0 + r.b.getD r.axis 0) / 2)),
        mkRecN f (r.a.set r.axis ((r.a.getD r.axis 0 + r.b.getD r.axis 0) / 2)) r.b with
  | some c1, some c2 => some (c1, c2)
  | _, _ => none

/-- The n-D instantiation of the adaptive loop's region interface. -/
def schemeN (f : List ℚ → Option ℚ) : Scheme RecN :=
  { est := RecN.est, err := RecN.err, split := splitN f }

/-- Modelled from the spec: the n-D adaptive `Integrate` declared at
`Quadrature.h` line 78 (body in the missing `Quadrature.inl`).  A box with
some axis of exactly zero width returns estimate 0, error 0, 0 evaluations
without touching the integrand (spec §9); otherwise the same adaptive loop
runs on box records, with `2n+1` integrand evaluations per rule
application. -/
def IntegrateND (f : List ℚ → Option ℚ) (a b : List ℚ) (epsrel epsabs : ℚ)
    (maxSub : ℕ) : QuadResult :=
  if (a.zip b).any (fun p => decide (p.1 = p.2)) then .ok 0 0 0
  else
    match mkRecN f a b with
    | none => .invalidIntegrand
    | some r =>
        loop (schemeN f) epsrel epsabs (2 * (2 * a.length + 1)) maxSub [r]
          (2 * a.length + 1)

/-- A point-table integrand used against the substitution-invariance claim:
finite everywhere, nonzero only at three abscissas chosen so that both the
plain and the reciprocal-substituted runs converge immediately. -/
def fTable : ℚ → Option ℚ :=
  fun t =>
    some (if t = 2 then 2 else if t = 3 / 2 then 1 else if t = 4 / 3 then 9 / 4 else 0)

/-! ## Theorems -/

/-- C3: each predefined substitution mixin is internally consistent: on its
domain (all reals for `NoSub`, positive reals for `ExpSub`, nonzero reals for
`InverseSub`) the round-trip `x(u(t)) = t` holds, and `dxdu` is the true
derivative of the forward map `x` — `1` for `NoSub`, `exp u` for `ExpSub`,
`-1/(u*u)` for `InverseSub`. -/
theorem c3_mixins_consistent :
    (∀ t : ℝ, (NoSub ℝ).x ((NoSub ℝ).u t) = t) ∧
    (∀ u : ℝ, HasDerivAt (NoSub ℝ).x ((NoSub ℝ).dxdu u) u) ∧
    (∀ t : ℝ, 0 < t → ExpSub.x (ExpSub.u t) = t) ∧
    (∀ u : ℝ, HasDerivAt ExpSub.x (ExpSub.dxdu u) u) ∧
    (∀ t : ℝ, t ≠ 0 → (InverseSub ℝ).x ((InverseSub ℝ).u t) = t) ∧
    (∀ u : ℝ, u ≠ 0 → HasDerivAt (InverseSub ℝ).x ((InverseSub ℝ).dxdu u) u) := by
  refine ⟨fun t => rfl, fun u => ?_, fun t ht => ?_, fun u => ?_, fun t ht => ?_,
    fun u hu => ?_⟩
  · exact hasDerivAt_id u
  · exact Real.exp_log ht
  · exact Real.hasDerivAt_exp u
  · show 1 / (1 / t) = t
    rw [one_div_one_div]
  · have h := hasDerivAt_inv hu
    have hx : (InverseSub ℝ).x = fun y : ℝ => y⁻¹ := by
      funext y; show 1 / y = y⁻¹; rw [one_div]
    have hd : (InverseSub ℝ).dxdu u = -(u ^ 2)⁻¹ := by
      show -1 / (u * u) = -(u ^ 2)⁻¹
      rw [sq]
      field_simp
    rw [hx, hd]
    exact h

/-- Witness for C3 at concrete points: the round trips at `t = 1` (for
`ExpSub`) and `t = 2` (for `InverseSub`), obtained by applying
`c3_mixins_consistent` and discharging the domain hypotheses there. -/
theorem c3_witness :
    ExpSub.x (ExpSub.u 1) = 1 ∧ (InverseSub ℝ).x ((InverseSub ℝ).u 2) = 2 :=
  ⟨c3_mixins_consistent.2.2.1 1 one_pos,
   c3_mixins_consistent.2.2.2.2.1 2 (by norm_num)⟩

/-! ### Generic facts about the adaptive loop -/

/-- The loop returns normally as soon as either tolerance is met by the
current global error sum, carrying the current sums and count - no further
subdivision happens. -/
theorem loop_stop (S : Scheme ρ) (epsrel epsabs : ℚ) (cost fuel : ℕ) (part : List ρ)
    (neval : ℕ)
    (h : errSum S part ≤ epsabs ∨ errSum S part ≤ epsrel * |estSum S part|) :
    loop S epsrel epsabs cost fuel part neval =
      .ok (estSum S part) (errSum S part) neval := by
  cases fuel <;> simp only [loop, if_pos h]

/-- With the budget exhausted and neither tolerance met, the loop signals
`nonConvergence`, still carrying the current estimate and error sums. -/
theorem loop_exhaust (S : Scheme ρ) (epsrel epsabs : ℚ) (cost : ℕ) (part : List ρ)
    (neval : ℕ)
    (h : ¬(errSum S part ≤ epsabs ∨ errSum S part ≤ epsrel * |estSum S part|)) :
    loop S epsrel epsabs cost 0 part neval =
      .nonConvergence (estSum S part) (errSum S part) neval := by
  simp only [loop, if_neg h]

/-- One subdivision step of the loop: with tolerances unmet and budget left,
the worst record is replaced by its two children and the loop recurses. -/
theorem loop_step (S : Scheme ρ) (epsrel epsabs : ℚ) (cost fuel : ℕ) (part : List ρ)
    (neval : ℕ) (r c1 c2 : ρ)
    (h : ¬(errSum S part ≤ epsabs ∨ errSum S part ≤ epsrel * |estSum S part|))
    (hr : part[pickWorst S part]? = some r) (hs : S.split r = some (c1, c2)) :
    loop S epsrel epsabs cost (fuel + 1) part neval =
      loop S epsrel epsabs cost fuel (replaceAt part (pickWorst S part) c1 c2)
        (neval + cost) := by
  simp only [loop, if_neg h, hr, hs]

/-- A non-finite value during a child evaluation aborts the whole call with
`invalidIntegrand` at once. -/
theorem loop_abort (S : Scheme ρ) (epsrel epsabs : ℚ) (cost fuel : ℕ) (part : List ρ)
    (neval : ℕ) (r : ρ)
    (h : ¬(errSum S part ≤ epsabs ∨ errSum S part ≤ epsrel * |estSum S part|))
    (hr : part[pickWorst S part]? = some r) (hs : S.split r = none) :
    loop S epsrel epsabs cost (fuel + 1) part neval = .invalidIntegrand := by
  simp only [loop, if_neg h, hr, hs]

/-- Soundness of the stopping rule: whenever the loop returns normally, the
returned error bound satisfies the absolute OR the relative tolerance
against the returned estimate. -/
theorem loop_ok_tol (S : Scheme ρ) (epsrel epsabs : ℚ) (cost : ℕ) :
    ∀ (fuel : ℕ) (part : List ρ) (neval : ℕ) (est err : ℚ) (n : ℕ),
      loop S epsrel epsabs cost fuel part neval = .ok est err n →
      err ≤ epsabs ∨ err ≤ epsrel * |est| := by
  intro fuel
  induction fuel with
  | zero =>
      intro part neval est err n h
      simp only [loop] at h
      split at h
      · next hc => cases h; exact hc
      · cases h
  | succ fuel ih =>
      intro part neval est err n h
      simp only [loop] at h
      split at h
      · next hc => cases h; exact hc
      · rcases hget : part[pickWorst S part]? with _ | r <;> rw [hget] at h <;>
          dsimp only at h
        · cases h
        · rcases hsp : S.split r with _ | ⟨c1, c2⟩ <;> rw [hsp] at h <;> dsimp only at h
          · cases h
          · exact ih _ _ _ _ _ h

/-- The global error sum of a partition of nonnegative-error records is
nonnegative. -/
theorem errSum_nonneg (S : Scheme ρ) (part : List ρ) (h : ∀ r ∈ part, 0 ≤ S.err r) :
    0 ≤ errSum S part := by
  apply List.sum_nonneg
  intro x hx
  obtain ⟨r, hr, rfl⟩ := List.mem_map.mp hx
  exact h r hr

/-- Members of the partition after a subdivision step are the two children
or previous members. -/
theorem mem_replaceAt {part : List ρ} {i : ℕ} {c1 c2 x : ρ}
    (hx : x ∈ replaceAt part i c1 c2) : x = c1 ∨ x = c2 ∨ x ∈ part := by
  unfold replaceAt at hx
  rcases List.mem_append.mp hx with h1 | h2
  · rcases List.mem_append.mp h1 with h3 | h4
    · exact Or.inr (Or.inr (List.take_subset i part h3))
    · rcases List.mem_cons.mp h4 with h5 | h6
      · exact Or.inl h5
      · rcases List.mem_cons.mp h6 with h7 | h8
        · exact Or.inr (Or.inl h7)
        · cases h8
  · exact Or.inr (Or.inr (List.drop_subset _ _ h2))

/-- If every record of the initial partition has a nonnegative local error
and subdivision only produces children with nonnegative local errors, a
normal return carries a nonnegative error bound. -/
theorem loop_ok_err_nonneg (S : Scheme ρ) (epsrel epsabs : ℚ) (cost : ℕ)
    (hsplit : ∀ r c1 c2, S.split r = some (c1, c2) → 0 ≤ S.err c1 ∧ 0 ≤ S.err c2) :
    ∀ (fuel : ℕ) (part : List ρ), (∀ r ∈ part, 0 ≤ S.err r) →
      ∀ (neval : ℕ) (est err : ℚ) (n : ℕ),
        loop S epsrel epsabs cost fuel part neval = .ok est err n → 0 ≤ err := by
  intro fuel
  induction fuel with
  | zero =>
      intro part hpart neval est err n h
      simp only [loop] at h
      split at h
      · cases h; exact errSum_nonneg S part hpart
      · cases h
  | succ fuel ih =>
      intro part hpart neval est err n h
      simp only [loop] at h
      split at h
      · cases h; exact errSum_nonneg S part hpart
      · rcases hget : part[pickWorst S part]? with _ | r <;> rw [hget] at h <;>
            dsimp only at h
        · cases h
        · rcases hsp : S.split r with _ | ⟨c1, c2⟩ <;> rw [hsp] at h <;> dsimp only at h
          · cases h
          · refine ih _ ?_ _ _ _ _ h
            intro x hx
            rcases mem_replaceAt hx with rfl | rfl | hmem
            · exact (hsplit r _ _ hsp).1
            · exact (hsplit r _ _ hsp).2
            · exact hpart x hmem

/-- Every record produced by the 1-D base rule carries a nonnegative local
error (it is an absolute value). -/
theorem gkEval_err_nonneg (f : ℚ → Option ℚ) (lo hi : ℚ) (r : Rec1)
    (h : gkEval f lo hi = some r) : 0 ≤ r.err := by
  unfold gkEval at h
  rcases hfl : f lo with _ | fl <;> rw [hfl] at h <;>
    rcases hfc : f ((lo + hi) / 2) with _ | fc <;> rw [hfc] at h <;>
      rcases hfh : f hi with _ | fh <;> rw [hfh] at h <;> dsimp only at h
  all_goals cases h
  exact abs_nonneg _

/-- Children produced by a 1-D subdivision carry nonnegative local errors. -/
theorem split1_err_nonneg (f : ℚ → Option ℚ) (r : Rec1) (p : Rec1 × Rec1)
    (h : split1 f r = some p) : 0 ≤ p.1.err ∧ 0 ≤ p.2.err := by
  unfold split1 at h
  rcases hL : gkEval f r.lo ((r.lo + r.hi) / 2) with _ | cl <;> rw [hL] at h <;>
    rcases hR : gkEval f ((r.lo + r.hi) / 2) r.hi with _ | cr <;> rw [hR] at h <;>
      dsimp only at h
  · cases h
  · cases h
  · cases h
  · have h1 := gkEval_err_nonneg _ _ _ _ hL
    have h2 := gkEval_err_nonneg _ _ _ _ hR
    split at h
    · cases h; exact ⟨h1, h2⟩
    · cases h; exact ⟨h2, h1⟩

/-- Every record produced by the n-D base rule carries a nonnegative local
error. -/
theorem mkRecN_err_nonneg (f : List ℚ → Option ℚ) (a b : List ℚ) (r : RecN)
    (h : mkRecN f a b = some r) : 0 ≤ r.err := by
  unfold mkRecN at h
  dsimp only at h
  split at h
  · cases h
  · split at h
    · cases h
    · cases h
      exact abs_nonneg _

/-- Children produced by an n-D subdivision carry nonnegative local
errors. -/
theorem splitN_err_nonneg (f : List ℚ → Option ℚ) (r : RecN) (p : RecN × RecN)
    (h : splitN f r = some p) : 0 ≤ p.1.err ∧ 0 ≤ p.2.err := by
  unfold splitN at h
  rcases hA : mkRecN f r.a (r.b.set r.axis ((r.a.getD r.axis 0 + r.b.getD r.axis 0) / 2))
      with _ | c1 <;> rw [hA] at h <;>
    rcases hB : mkRecN f (r.a.set r.axis ((r.a.getD r.axis 0 + r.b.getD r.axis 0) / 2)) r.b
        with _ | c2 <;> rw [hB] at h <;> dsimp only at h
  · cases h
  · cases h
  · cases h
  · cases h
    exact ⟨mkRecN_err_nonneg _ _ _ _ hA, mkRecN_err_nonneg _ _ _ _ hB⟩

/-- C1: an adaptive `Integrate` call, 1-D or n-D, that returns normally
stops as soon as EITHER the relative target OR the absolute target is
satisfied by the accumulated error bound: a normal return carries an error
bound meeting at least one of the two targets (never necessarily both), the
loop stops at once when the global error sum meets either single bound, and
with `epsrel = 0` a normal return guarantees the absolute target - which is
why a caller wanting a strict absolute guarantee sets `epsrel` to 0. -/
theorem c1_stop_when_either_tolerance_met
    (f : ℚ → Option ℚ) (fN : List ℚ → Option ℚ) (a b epsrel epsabs : ℚ)
    (aN bN : List ℚ) (maxSub : ℕ) (est err : ℚ) (n : ℕ) :
    (Integrate f a b epsrel epsabs maxSub = .ok est err n →
        err ≤ epsabs ∨ err ≤ epsrel * |est|) ∧
    (epsrel = 0 → 0 ≤ epsabs → Integrate f a b epsrel epsabs maxSub = .ok est err n →
        err ≤ epsabs) ∧
    (IntegrateND fN aN bN epsrel epsabs maxSub = .ok est err n →
        err ≤ epsabs ∨ err ≤ epsrel * |est|) ∧
    (epsrel = 0 → 0 ≤ epsabs → IntegrateND fN aN bN epsrel epsabs maxSub = .ok est err n →
        err ≤ epsabs) ∧
    (∀ (part : List Rec1) (fuel neval : ℕ), errSum (scheme1 f) part ≤ epsabs →
        loop (scheme1 f) epsrel epsabs 6 fuel part neval =
          .ok (estSum (scheme1 f) part) (errSum (scheme1 f) part) neval) ∧
    (∀ (part : List Rec1) (fuel neval : ℕ),
        errSum (scheme1 f) part ≤ epsrel * |estSum (scheme1 f) part| →
        loop (scheme1 f) epsrel epsabs 6 fuel part neval =
          .ok (estSum (scheme1 f) part) (errSum (scheme1 f) part) neval) := by
  refine ⟨?_, ?_, ?_, ?_, ?_, ?_⟩
  · intro h
    unfold Integrate at h
    split at h
    · cases h
      right
      simp
    · rcases hg : gkEval f a b with _ | r <;> rw [hg] at h <;> dsimp only at h
      · cases h
      · exact loop_ok_tol _ _ _ _ _ _ _ _ _ _ h
  · intro hrel habs h
    subst hrel
    unfold Integrate at h
    split at h
    · cases h
      exact habs
    · rcases hg : gkEval f a b with _ | r <;> rw [hg] at h <;> dsimp only at h
      · cases h
      · have htol := loop_ok_tol _ _ _ _ _ _ _ _ _ _ h
        have hnn : 0 ≤ err := by
          refine loop_ok_err_nonneg (scheme1 f) 0 epsabs 6 ?_ maxSub [r] ?_ 3 est err n h
          · intro r' c1 c2 hs
            exact split1_err_nonneg f r' (c1, c2) hs
          · intro x hx
            rw [List.mem_singleton.mp hx]
            exact gkEval_err_nonneg f a b r hg
        rcases htol with h1 | h2
        · exact h1
        · simp only [zero_mul] at h2
          linarith
  · intro h
    unfold IntegrateND at h
    split at h
    · cases h
      right
      simp
    · rcases hg : mkRecN fN aN bN with _ | r <;> rw [hg] at h <;> dsimp only at h
      · cases h
      · exact loop_ok_tol _ _ _ _ _ _ _ _ _ _ h
  · intro hrel habs h
    subst hrel
    unfold IntegrateND at h
    split at h
    · cases h
      exact habs
    · rcases hg : mkRecN fN aN bN with _ | r <;> rw [hg] at h <;> dsimp only at h
      · cases h
      · have htol := loop_ok_tol _ _ _ _ _ _ _ _ _ _ h
        have hnn : 0 ≤ err := by
          refine loop_ok_err_nonneg (schemeN fN) 0 epsabs _ ?_ maxSub [r] ?_ _ est err n h
          · intro r' c1 c2 hs
            exact splitN_err_nonneg fN r' (c1, c2) hs
          · intro x hx
            rw [List.mem_singleton.mp hx]
            exact mkRecN_err_nonneg fN aN bN r hg
        rcases htol with h1 | h2
        · exact h1
        · simp only [zero_mul] at h2
          linarith
  · intro part fuel neval hle
    exact loop_stop _ _ _ _ _ _ _ (Or.inl hle)
  · intro part fuel neval hle
    exact loop_stop _ _ _ _ _ _ _ (Or.inr hle)

/-- Witness for C1: a constant integrand over `[0, 1]` (and over the box
`[[0], [1]]`) with `epsrel = 0`, `epsabs = 1`: both calls return normally
with estimate 1, error bound 0 and 3 evaluations, and applying
`c1_stop_when_either_tolerance_met` to these runs discharges its
hypotheses - the returned bound `0` meets one of the two targets, and meets
the absolute target since `epsrel = 0`. -/
theorem c1_witness :
    Integrate (fun _ => some 1) 0 1 0 1 10 = .ok 1 0 3 ∧
    IntegrateND (fun _ => some 1) [0] [1] 0 1 10 = .ok 1 0 3 ∧
    ((0 : ℚ) ≤ 1 ∨ (0 : ℚ) ≤ 0 * |(1 : ℚ)|) ∧ ((0 : ℚ) ≤ 1) := by
  have h1 : Integrate (fun _ => some 1) 0 1 0 1 10 = .ok 1 0 3 := by
    have hg : gkEval (fun _ => some 1) 0 1 = some ⟨0, 1, 1, 0⟩ := by
      unfold gkEval
      norm_num
    unfold Integrate
    rw [if_neg (by norm_num : ¬((0 : ℚ) = 1)), hg]
    dsimp only
    rw [loop_stop _ _ _ _ _ _ _ (Or.inl (by norm_num [errSum, scheme1] :
      errSum (scheme1 (fun _ => some (1 : ℚ))) [⟨0, 1, 1, 0⟩] ≤ 1))]
    norm_num [estSum, errSum, scheme1]
  have h2 : IntegrateND (fun _ => some 1) [0] [1] 0 1 10 = .ok 1 0 3 := by
    have hg : mkRecN (fun _ => some 1) [0] [1] = some ⟨[0], [1], 1, 0, 0⟩ := by
      unfold mkRecN centerPt
      norm_num [show List.range 1 = [0] from rfl, List.mapM.loop, idxMax]
    unfold IntegrateND
    rw [if_neg (by simp :
      ¬((([0] : List ℚ).zip [1]).any (fun p => decide (p.1 = p.2)) = true)), hg]
    dsimp only
    rw [loop_stop _ _ _ _ _ _ _ (Or.inl (by norm_num [errSum, schemeN] :
      errSum (schemeN (fun _ => some (1 : ℚ))) [⟨[0], [1], 1, 0, 0⟩] ≤ 1))]
    norm_num [estSum, errSum, schemeN]
  refine ⟨h1, h2, ?_, ?_⟩
  · exact (c1_stop_when_either_tolerance_met (fun _ => some 1) (fun _ => some 1)
      0 1 0 1 [0] [1] 10 1 0 3).1 h1
  · exact (c1_stop_when_either_tolerance_met (fun _ => some 1) (fun _ => some 1)
      0 1 0 1 [0] [1] 10 1 0 3).2.2.2.1 rfl (by norm_num) h2

/-- A non-finite value at the center of an interval makes the 1-D rule
application fail: the center is among the rule's evaluation points. -/
theorem gkEval_center_none (f : ℚ → Option ℚ) (lo hi : ℚ)
    (h : f ((lo + hi) / 2) = none) : gkEval f lo hi = none := by
  unfold gkEval
  rw [h]
  rcases f lo with _ | fl <;> rcases f hi with _ | fh <;> rfl

/-- A non-finite value at the center of a box makes the n-D rule application
fail: the center is among the stencil's evaluation points. -/
theorem mkRecN_center_none (f : List ℚ → Option ℚ) (a b : List ℚ)
    (h : f (centerPt a b) = none) : mkRecN f a b = none := by
  unfold mkRecN
  dsimp only
  rw [h]

/-- C8: a non-finite integrand value at a point the adaptive engine
evaluates aborts the call with `invalidIntegrand` immediately, and the
result carries no estimate (the `invalidIntegrand` outcome has no payload):
(1) in 1-D, a non-finite value at the center of a non-degenerate domain
aborts the initial rule application; (2) whenever a subdivision step's child
evaluation hits a non-finite value, the loop aborts at once, whatever was
accumulated so far; (3) likewise in n-D for the center of a non-degenerate
box. -/
theorem c8_invalid_integrand (f : ℚ → Option ℚ) (fN : List ℚ → Option ℚ)
    (a b epsrel epsabs : ℚ) (aN bN : List ℚ) (maxSub : ℕ) :
    (a ≠ b → f ((a + b) / 2) = none →
      Integrate f a b epsrel epsabs maxSub = .invalidIntegrand) ∧
    (∀ (fuel : ℕ) (part : List Rec1) (neval : ℕ) (r : Rec1),
      ¬(errSum (scheme1 f) part ≤ epsabs ∨
          errSum (scheme1 f) part ≤ epsrel * |estSum (scheme1 f) part|) →
      part[pickWorst (scheme1 f) part]? = some r →
      split1 f r = none →
      loop (scheme1 f) epsrel epsabs 6 (fuel + 1) part neval = .invalidIntegrand) ∧
    ((aN.zip bN).any (fun p => decide (p.1 = p.2)) = false →
      fN (centerPt aN bN) = none →
      IntegrateND fN aN bN epsrel epsabs maxSub = .invalidIntegrand) := by
  refine ⟨?_, ?_, ?_⟩
  · intro hab hc
    unfold Integrate
    rw [if_neg hab, gkEval_center_none f a b hc]
  · intro fuel part neval r hstop hget hsp
    exact loop_abort _ _ _ _ _ _ _ _ hstop hget hsp
  · intro hz hc
    unfold IntegrateND
    rw [hz]
    rw [if_neg (by simp), mkRecN_center_none fN aN bN hc]

/-- Witness for C8: the everywhere-non-finite integrand over `[0, 1]` (and
over the box `[[0], [1]]`) aborts with `invalidIntegrand`, by applying
`c8_invalid_integrand` and discharging its hypotheses at these inputs. -/
theorem c8_witness :
    Integrate (fun _ => (none : Option ℚ)) 0 1 (1 / 10) (1 / 10) 5 = .invalidIntegrand ∧
    IntegrateND (fun _ => (none : Option ℚ)) [0] [1] (1 / 10) (1 / 10) 5 =
      .invalidIntegrand :=
  ⟨(c8_invalid_integrand (fun _ => none) (fun _ => none) 0 1 (1 / 10) (1 / 10)
      [0] [1] 5).1 (by norm_num) rfl,
   (c8_invalid_integrand (fun _ => none) (fun _ => none) 0 1 (1 / 10) (1 / 10)
      [0] [1] 5).2.2 (by simp) rfl⟩

/-- C9: when the subdivision budget is exhausted before either tolerance is
met, the loop signals `nonConvergence` to the caller - never a silent `ok` -
while still returning the best current estimate and accumulated error bound
(finite rationals by construction), in 1-D and in n-D; and, as the spec's
example, a budget of 1 with zero tolerances on `x ↦ x²` over `[0, 1]` yields
`nonConvergence` with the finite estimate `1/3`, error bound `1/48` and 9
evaluations. -/
theorem c9_nonconvergence (f : ℚ → Option ℚ) (fN : List ℚ → Option ℚ)
    (epsrel epsabs : ℚ) :
    (∀ (part : List Rec1) (neval : ℕ),
      ¬(errSum (scheme1 f) part ≤ epsabs ∨
          errSum (scheme1 f) part ≤ epsrel * |estSum (scheme1 f) part|) →
      loop (scheme1 f) epsrel epsabs 6 0 part neval =
        .nonConvergence (estSum (scheme1 f) part) (errSum (scheme1 f) part) neval) ∧
    (∀ (cost : ℕ) (part : List RecN) (neval : ℕ),
      ¬(errSum (schemeN fN) part ≤ epsabs ∨
          errSum (schemeN fN) part ≤ epsrel * |estSum (schemeN fN) part|) →
      loop (schemeN fN) epsrel epsabs cost 0 part neval =
        .nonConvergence (estSum (schemeN fN) part) (errSum (schemeN fN) part) neval) ∧
    Integrate (fun x => some (x * x)) 0 1 0 0 1 = .nonConvergence (1 / 3) (1 / 48) 9 := by
  refine ⟨?_, ?_, ?_⟩
  · intro part neval h
    exact loop_exhaust _ _ _ _ _ _ h
  · intro cost part neval h
    exact loop_exhaust _ _ _ _ _ _ h
  · have hg : gkEval (fun x => some (x * x)) 0 1 = some ⟨0, 1, 1 / 3, 1 / 12⟩ := by
      unfold gkEval
      norm_num
    have hc1 : gkEval (fun x => some (x * x)) 0 ((0 + 1) / 2) =
        some ⟨0, 1 / 2, 1 / 24, 1 / 96⟩ := by
      unfold gkEval
      norm_num
    have hc2 : gkEval (fun x => some (x * x)) ((0 + 1) / 2) 1 =
        some ⟨1 / 2, 1, 7 / 24, 1 / 96⟩ := by
      unfold gkEval
      norm_num
    have hsp : split1 (fun x => some (x * x)) ⟨0, 1, 1 / 3, 1 / 12⟩ =
        some (⟨0, 1 / 2, 1 / 24, 1 / 96⟩, ⟨1 / 2, 1, 7 / 24, 1 / 96⟩) := by
      unfold split1
      dsimp only
      rw [hc1, hc2]
      dsimp only
      rw [if_pos (by norm_num : (0 : ℚ) ≤ 1)]
    have hnstop1 : ¬(errSum (scheme1 (fun x => some (x * x))) [⟨0, 1, 1 / 3, 1 / 12⟩] ≤ 0 ∨
        errSum (scheme1 (fun x => some (x * x))) [⟨0, 1, 1 / 3, 1 / 12⟩] ≤
          0 * |estSum (scheme1 (fun x => some (x * x))) [⟨0, 1, 1 / 3, 1 / 12⟩]|) := by
      push_neg
      norm_num [errSum, estSum, scheme1]
    have hget : [(⟨0, 1, 1 / 3, 1 / 12⟩ : Rec1)][pickWorst
        (scheme1 (fun x => some (x * x))) [⟨0, 1, 1 / 3, 1 / 12⟩]]? =
        some ⟨0, 1, 1 / 3, 1 / 12⟩ := by
      norm_num [pickWorst, idxMax, scheme1]
    unfold Integrate
    rw [if_neg (by norm_num : ¬((0 : ℚ) = 1)), hg]
    dsimp only
    rw [loop_step _ _ _ _ _ _ _ _ _ _ hnstop1 hget hsp]
    have hrepl : replaceAt [(⟨0, 1, 1 / 3, 1 / 12⟩ : Rec1)]
        (pickWorst (scheme1 (fun x => some (x * x))) [⟨0, 1, 1 / 3, 1 / 12⟩])
        ⟨0, 1 / 2, 1 / 24, 1 / 96⟩ ⟨1 / 2, 1, 7 / 24, 1 / 96⟩ =
        [⟨0, 1 / 2, 1 / 24, 1 / 96⟩, ⟨1 / 2, 1, 7 / 24, 1 / 96⟩] := by
      norm_num [replaceAt, pickWorst, idxMax, scheme1]
    rw [hrepl]
    rw [loop_exhaust _ _ _ _ _ _ (by push_neg; norm_num [errSum, estSum, scheme1])]
    norm_num [estSum, errSum, scheme1]

/-- Witness for C9: concrete unconverged states with the budget exhausted,
in 1-D and n-D, obtained by applying `c9_nonconvergence` and discharging its
not-yet-converged hypotheses there. -/
theorem c9_witness :
    loop (scheme1 (fun _ => some 1)) 0 0 6 0 [⟨0, 1, 1, 1⟩] 3 =
      .nonConvergence (estSum (scheme1 (fun _ => some 1)) [⟨0, 1, 1, 1⟩])
        (errSum (scheme1 (fun _ => some 1)) [⟨0, 1, 1, 1⟩]) 3 ∧
    loop (schemeN (fun _ => some 1)) 0 0 6 0 [⟨[0], [1], 1, 1, 0⟩] 3 =
      .nonConvergence (estSum (schemeN (fun _ => some 1)) [⟨[0], [1], 1, 1, 0⟩])
        (errSum (schemeN (fun _ => some 1)) [⟨[0], [1], 1, 1, 0⟩]) 3 :=
  ⟨(c9_nonconvergence (fun _ => some 1) (fun _ => some 1) 0 0).1 [⟨0, 1, 1, 1⟩] 3
      (by push_neg; norm_num [errSum, estSum, scheme1]),
   (c9_nonconvergence (fun _ => some 1) (fun _ => some 1) 0 0).2.1 6 [⟨[0], [1], 1, 1, 0⟩] 3
      (by push_neg; norm_num [errSum, estSum, schemeN])⟩

/-- C10: a zero-width domain - `a = b` in 1-D, or some axis with `a_i = b_i`
in n-D - returns estimate exactly 0, absolute error 0 and evaluation count
0, for every integrand and tolerances, performing no integrand evaluations
(the integrand argument is arbitrary and unused). -/
theorem c10_zero_width (f : ℚ → Option ℚ) (fN : List ℚ → Option ℚ)
    (a epsrel epsabs : ℚ) (maxSub : ℕ) (aN bN : List ℚ) :
    Integrate f a a epsrel epsabs maxSub = .ok 0 0 0 ∧
    ((∃ p ∈ aN.zip bN, p.1 = p.2) →
      IntegrateND fN aN bN epsrel epsabs maxSub = .ok 0 0 0) := by
  constructor
  · unfold Integrate
    rw [if_pos rfl]
  · rintro ⟨p, hp, hpe⟩
    unfold IntegrateND
    rw [if_pos (by rw [List.any_eq_true]; exact ⟨p, hp, by simp [hpe]⟩)]

/-- Witness for C10: a concrete 1-D zero-width call at `a = b = 5` and a
concrete n-D box `[0,1] × [0,2]` whose first axis has zero width, both with
a nontrivial integrand, obtained by applying `c10_zero_width`. -/
theorem c10_witness :
    Integrate (fun x => some (x * x)) 5 5 (1 / 10) (1 / 10) 7 = .ok 0 0 0 ∧
    IntegrateND (fun _ => some 1) [0, 1] [0, 2] (1 / 10) (1 / 10) 7 = .ok 0 0 0 :=
  ⟨(c10_zero_width (fun x => some (x * x)) (fun _ => some 1) 5 (1 / 10) (1 / 10) 7
      [0, 1] [0, 2]).1,
   (c10_zero_width (fun x => some (x * x)) (fun _ => some 1) 5 (1 / 10) (1 / 10) 7
      [0, 1] [0, 2]).2 ⟨(0, 0), by simp, rfl⟩⟩

/-! ### Orientation reversal (mirror) simulation -/

/-- Applying the base rule to the reversed interval yields the mirrored
record: bounds swapped, estimate negated, local error unchanged (the rule's
shared points are symmetric and the half-width is signed). -/
theorem gkEval_mirror (f : ℚ → Option ℚ) (lo hi : ℚ) :
    gkEval f hi lo = (gkEval f lo hi).map mirrorRec := by
  unfold gkEval
  rw [show (hi + lo) / 2 = (lo + hi) / 2 by ring]
  rcases f lo with _ | fl <;> rcases f ((lo + hi) / 2) with _ | fc <;>
    rcases f hi with _ | fh <;> dsimp only [Option.map]
  unfold mirrorRec
  dsimp only
  rw [Option.some.injEq, Rec1.mk.injEq]
  refine ⟨rfl, rfl, by ring, ?_⟩
  rw [show (lo - hi) / 2 * (fh + 4 * fc + fl) / 3 - (lo - hi) / 2 * (2 * fc) =
    -((hi - lo) / 2 * (fl + 4 * fc + fh) / 3 - (hi - lo) / 2 * (2 * fc)) by ring, abs_neg]

/-- Subdividing the mirrored record produces exactly the mirrored children,
in the same insertion order (the child on the side of the smaller endpoint
still comes first). -/
theorem split1_mirror (f : ℚ → Option ℚ) (r : Rec1) :
    split1 f (mirrorRec r) =
      (split1 f r).map (fun p => (mirrorRec p.1, mirrorRec p.2)) := by
  unfold split1
  dsimp only [mirrorRec]
  rw [show (r.hi + r.lo) / 2 = (r.lo + r.hi) / 2 by ring]
  rw [gkEval_mirror f ((r.lo + r.hi) / 2) r.hi, gkEval_mirror f r.lo ((r.lo + r.hi) / 2)]
  rcases hL : gkEval f r.lo ((r.lo + r.hi) / 2) with _ | cl <;>
    rcases hR : gkEval f ((r.lo + r.hi) / 2) r.hi with _ | cr <;>
      dsimp only [Option.map]
  rcases lt_trichotomy r.lo r.hi with hlt | heq | hgt
  · rw [if_neg (not_le.mpr hlt), if_pos (le_of_lt hlt)]
    rfl
  · rw [if_pos (le_of_eq heq.symm), if_pos (le_of_eq heq)]
    have hm : (r.lo + r.hi) / 2 = r.lo := by rw [heq]; ring
    rw [hm] at hL hR
    rw [← heq] at hR
    have hcc : cl = cr := Option.some_injective _ (hL.symm.trans hR)
    rw [hcc]
    rfl
  · rw [if_pos (le_of_lt hgt), if_neg (not_le.mpr hgt)]
    rfl

/-- Summing the negation of a projection over a list negates the sum. -/
theorem sum_map_neg {α : Type} (l : List α) (g : α → ℚ) :
    (l.map (fun r => -(g r))).sum = -((l.map g).sum) := by
  induction l with
  | nil => simp
  | cons r t ih =>
      simp only [List.map_cons, List.sum_cons, ih]
      ring

/-- Mirroring a partition negates the global estimate. -/
theorem estSum_map_mirror (f : ℚ → Option ℚ) (part : List Rec1) :
    estSum (scheme1 f) (part.map mirrorRec) = -estSum (scheme1 f) part := by
  unfold estSum
  rw [List.map_map]
  exact sum_map_neg part _

/-- Mirroring a partition keeps the global error sum. -/
theorem errSum_map_mirror (f : ℚ → Option ℚ) (part : List Rec1) :
    errSum (scheme1 f) (part.map mirrorRec) = errSum (scheme1 f) part := by
  unfold errSum
  rw [List.map_map]
  rfl

/-- Mirroring a partition does not change which record is refined next: the
error list is unchanged, and the tie-break is stable. -/
theorem pickWorst_map_mirror (f : ℚ → Option ℚ) (part : List Rec1) :
    pickWorst (scheme1 f) (part.map mirrorRec) = pickWorst (scheme1 f) part := by
  unfold pickWorst
  rw [List.map_map]
  rfl

/-- Mirroring commutes with the subdivision step on partitions. -/
theorem replaceAt_map_mirror (part : List Rec1) (i : ℕ) (c1 c2 : Rec1) :
    replaceAt (part.map mirrorRec) i (mirrorRec c1) (mirrorRec c2) =
      (replaceAt part i c1 c2).map mirrorRec := by
  unfold replaceAt
  simp [List.map_take, List.map_drop]

/-- Negating an adaptive result twice is the identity. -/
theorem negResult_negResult (q : QuadResult) : negResult (negResult q) = q := by
  cases q <;> simp [negResult]

/-- The adaptive loop on the mirrored partition produces the negated result:
same branch decisions at every step, estimate negated, error bound and
evaluation count unchanged. -/
theorem loop_mirror (f : ℚ → Option ℚ) (epsrel epsabs : ℚ) (cost : ℕ) :
    ∀ (fuel : ℕ) (part : List Rec1) (neval : ℕ),
      loop (scheme1 f) epsrel epsabs cost fuel (part.map mirrorRec) neval =
        negResult (loop (scheme1 f) epsrel epsabs cost fuel part neval) := by
  intro fuel
  induction fuel with
  | zero =>
      intro part neval
      simp only [loop]
      rw [errSum_map_mirror, estSum_map_mirror, abs_neg]
      split_ifs with h <;> simp [negResult]
  | succ fuel ih =>
      intro part neval
      simp only [loop]
      rw [errSum_map_mirror, estSum_map_mirror, abs_neg, pickWorst_map_mirror]
      split_ifs with h
      · simp [negResult]
      · rw [List.getElem?_map]
        rcases hget : part[pickWorst (scheme1 f) part]? with _ | r <;>
          dsimp only [Option.map]
        · simp [negResult]
        · rw [show (scheme1 f).split (mirrorRec r) = split1 f (mirrorRec r) from rfl,
            show (scheme1 f).split r = split1 f r from rfl, split1_mirror]
          rcases hsp : split1 f r with _ | ⟨c1, c2⟩ <;> dsimp only [Option.map]
          · rfl
          · rw [replaceAt_map_mirror, ih]

/-- C2: reversing the interval's orientation exactly negates the returned
estimate, for every integrand, tolerances and bounds with `a ≠ b`, keeping
the error bound and the evaluation count (and mapping the failure outcomes
to themselves). -/
theorem c2_orientation_antisymmetry (f : ℚ → Option ℚ) (a b epsrel epsabs : ℚ)
    (maxSub : ℕ) (hab : a ≠ b) :
    Integrate f a b epsrel epsabs maxSub =
      negResult (Integrate f b a epsrel epsabs maxSub) := by
  unfold Integrate
  rw [if_neg hab, if_neg (Ne.symm hab)]
  rw [gkEval_mirror f a b]
  rcases hg : gkEval f a b with _ | r <;> dsimp only [Option.map]
  · rfl
  · rw [show [mirrorRec r] = [r].map mirrorRec from rfl, loop_mirror, negResult_negResult]

/-- Witness for C2 at the concrete run `∫ x dx` over `[0, 1]` against
`[1, 0]`, obtained by applying `c2_orientation_antisymmetry` and
discharging `a ≠ b` there. -/
theorem c2_witness :
    Integrate (fun x => some x) 0 1 (1 / 10) (1 / 10) 5 =
      negResult (Integrate (fun x => some x) 1 0 (1 / 10) (1 / 10) 5) :=
  c2_orientation_antisymmetry (fun x => some x) 0 1 (1 / 10) (1 / 10) 5 (by norm_num)

/-- C4 (amended): the identity mixin is a behavioral no-op: the substituted
call with `NoSub` returns exactly the same result as the plain call, for
every integrand, bounds and tolerances.  (The general agreement-within-
tolerance part of the claim fails on an explicit integrand; see the
counterexample theorem below.) -/
theorem c4_identity_noop (f : ℚ → Option ℚ) (a b epsrel epsabs : ℚ) (maxSub : ℕ) :
    IntegrateSub (NoSub ℚ) f a b epsrel epsabs maxSub =
      Integrate f a b epsrel epsabs maxSub := by
  unfold IntegrateSub
  have hfun : (fun u => (f ((NoSub ℚ).x u)).map (fun v => v * (NoSub ℚ).dxdu u)) = f := by
    funext u
    dsimp [NoSub]
    rcases f u with _ | v <;> simp
  rw [hfun]
  rfl

/-- Counterexample to C4 as stated: with the consistent reciprocal mixin
`InverseSub` (consistency per C3) and the finite integrand `fTable` over
`[1, 2]`, both the plain and the substituted calls converge immediately
(error bound 0, well within both tolerances), yet the two estimates are 1
and 2 - they do not agree within the requested tolerances
(`epsrel = 1/100000`, `epsabs = 1/10¹⁰`). -/
theorem c4_counterexample :
    Integrate fTable 1 2 (1 / 100000) (1 / 10000000000) 50 = .ok 1 0 3 ∧
    IntegrateSub (InverseSub ℚ) fTable 1 2 (1 / 100000) (1 / 10000000000) 50 =
      .ok 2 0 3 ∧
    ¬(|(2 : ℚ) - 1| ≤ 1 / 10000000000 ∨ |(2 : ℚ) - 1| ≤ 1 / 100000 * |(1 : ℚ)|) := by
  refine ⟨?_, ?_, by norm_num⟩
  · have hg : gkEval fTable 1 2 = some ⟨1, 2, 1, 0⟩ := by
      unfold gkEval fTable
      norm_num
    unfold Integrate
    rw [if_neg (by norm_num : ¬((1 : ℚ) = 2)), hg]
    dsimp only
    rw [loop_stop _ _ _ _ _ _ _ (Or.inl (by norm_num [errSum, scheme1] :
      errSum (scheme1 fTable) [⟨1, 2, 1, 0⟩] ≤ 1 / 10000000000))]
    norm_num [estSum, errSum, scheme1]
  · unfold IntegrateSub
    dsimp only [InverseSub]
    have hg : gkEval (fun u => (fTable (1 / u)).map (fun v => v * (-1 / (u * u))))
        (1 / 1) (1 / 2) = some ⟨1 / 1, 1 / 2, 2, 0⟩ := by
      unfold gkEval fTable
      norm_num
    unfold Integrate
    rw [if_neg (by norm_num : ¬((1 : ℚ) / 1 = 1 / 2)), hg]
    dsimp only
    rw [loop_stop _ _ _ _ _ _ _ (Or.inl (by norm_num [errSum, scheme1] :
      errSum (scheme1 (fun u => (fTable (1 / u)).map (fun v => v * (-1 / (u * u)))))
        [⟨1 / 1, 1 / 2, 2, 0⟩] ≤ 1 / 10000000000))]
    norm_num [estSum, errSum, scheme1]

/-- The pairwise form of composite Simpson agrees with the textbook weighted
sum: over `k+1` pairs the rule is `h/3` times (both endpoints, plus 4 times
the odd-index samples, plus 2 times the interior even-index samples). -/
theorem simpson_succ_eq (f : ℕ → ℚ) (h : ℚ) :
    ∀ k, simpson (k + 1) f h =
      h / 3 * (f 0 + f (2 * (k + 1)) + 4 * oddSum (k + 1) f + 2 * evenSum k f) := by
  intro k
  induction k with
  | zero =>
      simp only [simpson, oddSum, evenSum]
      ring_nf
  | succ k ih =>
      show simpson (k + 1) f h + _ = _
      rw [ih]
      simp only [oddSum, evenSum]
      ring_nf

/-- C5 (amended to even `n ≥ 4`): for every sample array and spacing,
`DiscreteIntegrate` equals the composite Simpson weighted sum over the
samples when `n` is odd (`n ≥ 3`), and equals the end-corrected formula -
Simpson over the first `n-1` samples plus the fourth-order
Hollingsworth-Hunter correction for the unpaired final interval - when `n`
is even with `n ≥ 4`.  The remaining accepted even count `n = 2` cannot
feed the four-sample correction and falls back to the trapezoid, so the
claim's unqualified even branch fails there; see the counterexample
theorem below. -/
theorem c5_discrete_dispatch (n : ℕ) (f : ℕ → ℚ) (h : ℚ) :
    (n % 2 = 1 → 3 ≤ n → DiscreteIntegrate n f h = .ok (simpsonSum n f h)) ∧
    (n % 2 = 0 → 4 ≤ n →
      DiscreteIntegrate n f h = .ok (simpsonSum (n - 1) f h + endCorr n f h)) := by
  constructor
  · intro hodd hn
    obtain ⟨k, rfl⟩ : ∃ k, n = 2 * k + 3 := ⟨(n - 3) / 2, by omega⟩
    unfold DiscreteIntegrate
    rw [if_neg (by omega), if_neg (by omega), if_pos (by omega)]
    have h1 : (2 * k + 3 - 1) / 2 = k + 1 := by omega
    have h2 : (2 * k + 3 - 1) = 2 * (k + 1) := by omega
    have h3 : (2 * k + 3 - 3) / 2 = k := by omega
    have h5 : 2 * (k + 1) / 2 = k + 1 := by omega
    rw [h1]
    simp only [simpsonSum, h1, h2, h3, h5]
    rw [simpson_succ_eq]
  · intro heven hn
    obtain ⟨k, rfl⟩ : ∃ k, n = 2 * k + 4 := ⟨(n - 4) / 2, by omega⟩
    unfold DiscreteIntegrate
    rw [if_neg (by omega), if_neg (by omega), if_neg (by omega)]
    have h1 : (2 * k + 4 - 2) / 2 = k + 1 := by omega
    have h2 : (2 * k + 4 - 1 - 1) / 2 = k + 1 := by omega
    have h3 : (2 * k + 4 - 1 - 1) = 2 * (k + 1) := by omega
    have h4 : (2 * k + 4 - 1 - 3) / 2 = k := by omega
    have h5 : 2 * (k + 1) / 2 = k + 1 := by omega
    rw [h1]
    simp only [simpsonSum, h2, h3, h4, h5]
    rw [simpson_succ_eq]

/-- Witness for C5 at `n = 5` and `n = 6` with concrete samples `f i = i²`
and spacing `h = 1`, obtained by applying `c5_discrete_dispatch` and
discharging the parity and size hypotheses there. -/
theorem c5_witness :
    DiscreteIntegrate 5 (fun i => (i : ℚ) ^ 2) 1 =
      .ok (simpsonSum 5 (fun i => (i : ℚ) ^ 2) 1) ∧
    DiscreteIntegrate 6 (fun i => (i : ℚ) ^ 2) 1 =
      .ok (simpsonSum 5 (fun i => (i : ℚ) ^ 2) 1 +
           endCorr 6 (fun i => (i : ℚ) ^ 2) 1) :=
  ⟨(c5_discrete_dispatch 5 (fun i => (i : ℚ) ^ 2) 1).1 (by norm_num) (by norm_num),
   (c5_discrete_dispatch 6 (fun i => (i : ℚ) ^ 2) 1).2 (by norm_num) (by norm_num)⟩

/-- Counterexample to C5 as stated: `n = 2` is an accepted even sample
count, yet on the samples `f i = i` with spacing 1 the routine returns the
trapezoid value `1/2`, while the claim's even-branch formula - Simpson over
the first `n-1` samples plus the four-sample end correction, read at `n = 2`
with its own index arithmetic - evaluates to `3/8`. -/
theorem c5_counterexample :
    DiscreteIntegrate 2 (fun i => (i : ℚ)) 1 = .ok (1 / 2) ∧
    simpsonSum 1 (fun i => (i : ℚ)) 1 + endCorr 2 (fun i => (i : ℚ)) 1 = 3 / 8 ∧
    ((1 : ℚ) / 2) ≠ 3 / 8 := by
  refine ⟨?_, ?_, by norm_num⟩
  · norm_num [DiscreteIntegrate]
  · norm_num [simpsonSum, oddSum, evenSum, endCorr]

/-- Composite Simpson over `m` pairs is exact on exact uniform samples of any
cubic: it returns the integral of the cubic from `x0` to `x0 + 2m·h`. -/
theorem simpson_cubic (c0 c1 c2 c3 x0 h : ℚ) :
    ∀ m, simpson m (cubicSamples c0 c1 c2 c3 x0 h) h =
      cubicInt c0 c1 c2 c3 (x0 + 2 * (m : ℚ) * h) - cubicInt c0 c1 c2 c3 x0 := by
  intro m
  induction m with
  | zero =>
      simp only [simpson, Nat.cast_zero]
      ring_nf
  | succ m ih =>
      simp only [simpson, cubicSamples, cubic, cubicInt] at *
      rw [ih]
      push_cast
      ring

/-- C6 (amended to `n ≥ 3`): for every cubic polynomial, every spacing and
every accepted sample count `n ≥ 3`, `DiscreteIntegrate` applied to the exact
uniform samples returns the exact integral of the cubic over
`[x0, x0 + (n-1)h]`.  (At `n = 2` no two-sample weighted sum can be exact on
cubics; see the counterexample theorem.) -/
theorem c6_cubic_exact (c0 c1 c2 c3 x0 h : ℚ) (n : ℕ) (hn : 3 ≤ n) :
    DiscreteIntegrate n (cubicSamples c0 c1 c2 c3 x0 h) h =
      .ok (cubicInt c0 c1 c2 c3 (x0 + ((n : ℚ) - 1) * h) - cubicInt c0 c1 c2 c3 x0) := by
  rcases Nat.even_or_odd n with he | ho
  · obtain ⟨k, rfl⟩ : ∃ k, n = 2 * k + 4 := by
      obtain ⟨j, hj⟩ := he
      exact ⟨j - 2, by omega⟩
    unfold DiscreteIntegrate
    rw [if_neg (by omega), if_neg (by omega), if_neg (by omega)]
    have h1 : (2 * k + 4 - 2) / 2 = k + 1 := by omega
    have i1 : 2 * k + 4 - 4 = 2 * k := by omega
    have i2 : 2 * k + 4 - 3 = 2 * k + 1 := by omega
    have i3 : 2 * k + 4 - 2 = 2 * k + 2 := by omega
    have i4 : 2 * k + 4 - 1 = 2 * k + 3 := by omega
    rw [h1, simpson_cubic]
    simp only [endCorr, i1, i2, i3, i4, cubicSamples, cubic, Except.ok.injEq]
    simp only [cubicInt]
    push_cast
    ring
  · obtain ⟨k, rfl⟩ : ∃ k, n = 2 * k + 3 := by
      obtain ⟨j, hj⟩ := ho
      exact ⟨j - 1, by omega⟩
    unfold DiscreteIntegrate
    rw [if_neg (by omega), if_neg (by omega), if_pos (by omega)]
    have h1 : (2 * k + 3 - 1) / 2 = k + 1 := by omega
    rw [h1, simpson_cubic]
    simp only [Except.ok.injEq, cubicInt]
    push_cast
    ring

/-- Counterexample to C6 as stated: `n = 2` is an accepted sample count, yet
on the exact samples of `p(t) = t³` at ` t = 0, 1` (spacing 1) the routine
returns `1/2` while the exact integral over `[0, 1]` is `1/4`. -/
theorem c6_counterexample :
    DiscreteIntegrate 2 (cubicSamples 0 0 0 1 0 1) 1 = .ok (1 / 2) ∧
    cubicInt 0 0 0 1 (0 + ((2 : ℚ) - 1) * 1) - cubicInt 0 0 0 1 0 = 1 / 4 ∧
    ((1 : ℚ) / 2) ≠ 1 / 4 := by
  refine ⟨?_, by norm_num [cubicInt], by norm_num⟩
  norm_num [DiscreteIntegrate, cubicSamples, cubic]

/-- Witness for C6 on the spec's own example: `p(t) = t³` sampled at 5
uniform points over `[0, 1]` with `h = 1/4` yields exactly `1/4`, obtained by
applying `c6_cubic_exact` at those inputs. -/
theorem c6_witness :
    DiscreteIntegrate 5 (cubicSamples 0 0 0 1 0 (1 / 4)) (1 / 4) =
      .ok (cubicInt 0 0 0 1 (0 + ((5 : ℚ) - 1) * (1 / 4)) - cubicInt 0 0 0 1 0) ∧
    cubicInt 0 0 0 1 (0 + ((5 : ℚ) - 1) * (1 / 4)) - cubicInt 0 0 0 1 0 = 1 / 4 :=
  ⟨c6_cubic_exact 0 0 0 1 0 (1 / 4) 5 (by norm_num), by norm_num [cubicInt]⟩

/-- C7: for every `n < 2`, every sample array and every spacing,
`DiscreteIntegrate` fails with `InvalidInput`, and the outcome is independent
of the samples and the spacing (it fails fast before using any sample
value). -/
theorem c7_invalid_input (n : ℕ) (f g : ℕ → ℚ) (h h' : ℚ) (hn : n < 2) :
    DiscreteIntegrate n f h = .error .invalidInput ∧
    DiscreteIntegrate n f h = DiscreteIntegrate n g h' := by
  unfold DiscreteIntegrate
  rw [if_pos hn, if_pos hn]
  exact ⟨rfl, rfl⟩

/-- Witness for C7 at `n = 0` and `n = 1` with concrete samples, obtained by
applying `c7_invalid_input` and discharging `n < 2` there. -/
theorem c7_witness :
    DiscreteIntegrate 0 (fun _ => 5) 1 = .error .invalidInput ∧
    DiscreteIntegrate 1 (fun _ => 7) 1 = .error .invalidInput :=
  ⟨(c7_invalid_input 0 (fun _ => 5) (fun _ => 0) 1 1 (by norm_num)).1,
   (c7_invalid_input 1 (fun _ => 7) (fun _ => 0) 1 1 (by norm_num)).1⟩

end Copter
